import Mathlib

/-!
Shallow embedding of the raw-pointer FIFO queue `fifth::List<T>` from
`src/fifth.rs`.

The Rust code links heap-allocated nodes through raw `*mut Node<T>`
pointers.  We model the heap as a growing arena: an allocation made by
the n-th `Box::into_raw` lives at address `n + 1`, and the address `0`
plays the role of the null pointer (`ptr::null_mut()`).  A freed slot
(`Box::from_raw` in `pop`) is set to `none`.  Writing through or reading
from a dangling pointer is undefined behaviour in the source; in the
embedding those branches take a benign default (the out-of-range
`List.set` / `List.getD` behaviour) and are marked `-- UB in source`;
the reachable-state invariant proved below shows they are never
exercised by `new` / `push` / `pop`.
-/

namespace Fifth

/-- `Node<T>`: one element and a raw forward link (`0` = null). -/
structure Node (α : Type) where
  elem : α
  next : Nat
deriving Repr, DecidableEq

/-- `List<T>` from `fifth.rs` (named `RawList` here to avoid clashing with
Lean's `List`): a `head` and `tail` raw pointer plus the heap arena the
pointers point into. -/
structure RawList (α : Type) where
  arena : List (Option (Node α))
  head : Nat
  tail : Nat
deriving Repr, DecidableEq

variable {α : Type}

/-- Dereference a raw pointer: `none` for null or a dangling/freed address. -/
def readNode (s : RawList α) (p : Nat) : Option (Node α) :=
  if p = 0 then none else s.arena.getD (p - 1) none

/-- `List::new()`: head and tail both null, nothing allocated yet. -/
def RawList.new (α : Type) : RawList α :=
  { arena := [], head := 0, tail := 0 }

/-- `List::push(elem)`: allocate a fresh node (`Box::into_raw`), link the old
tail to it when the queue is non-empty, make it the new tail. -/
def push (s : RawList α) (elem : α) : RawList α :=
  -- `Box::into_raw(Box::new(Node::new(elem)))`: fresh address, node with null next
  let new_node : Nat := s.arena.length + 1
  let arena1 := s.arena ++ [some ⟨elem, 0⟩]
  if s.tail = 0 then
    { arena := arena1, head := new_node, tail := new_node }
  else
    -- `(*self.tail).next = new_node` (dereferencing a dangling tail is UB in source)
    let arena2 :=
      match arena1.getD (s.tail - 1) none with
      | some t => arena1.set (s.tail - 1) (some { t with next := new_node })
      | none => arena1
    { arena := arena2, head := s.head, tail := new_node }

/-- `List::pop()`: if head is null return `None`; otherwise reclaim the head
node (`Box::from_raw`), advance head, and reset tail when the queue became
empty. -/
def pop (s : RawList α) : Option α × RawList α :=
  if s.head = 0 then (none, s)
  else
    match readNode s s.head with
    | none => (none, s)    -- UB in source (dangling head); unreachable from Reachable states
    | some hd =>
      let arena1 := s.arena.set (s.head - 1) none   -- the Box drop frees the node
      let head1 := hd.next
      let tail1 := if head1 = 0 then 0 else s.tail
      (some hd.elem, { arena := arena1, head := head1, tail := tail1 })

/-- `List::peek()`: a shared borrow of the head element, or `None`. -/
def peek (s : RawList α) : Option α :=
  if s.head = 0 then none
  else (readNode s s.head).map (·.elem)

/-- `List::peek_mut()`: a mutable borrow of the head element, or `None`.
A mutable borrow is modelled as the pair (target address, current value);
note the source signature takes only `&self`. -/
def peek_mut (s : RawList α) : Option (Nat × α) :=
  if s.head = 0 then none
  else (readNode s s.head).map (fun n => (s.head, n.elem))

/-- `IntoIter<T>(List<T>)`. -/
structure IntoIter (α : Type) where
  inner : RawList α
deriving Repr, DecidableEq

/-- `List::into_iter(self)`: takes ownership of the whole queue. -/
def RawList.into_iter (s : RawList α) : IntoIter α :=
  ⟨s⟩

/-- `Iterator::next` for `IntoIter`: `self.0.pop()`. -/
def IntoIter.next (it : IntoIter α) : Option α × IntoIter α :=
  let r := pop it.inner
  (r.1, ⟨r.2⟩)

/-- `Iter<'a, T>`: an optional shared borrow of a node, modelled by the
address of the borrowed node. -/
structure Iter (α : Type) where
  pointer : Option Nat
deriving Repr, DecidableEq

/-- `List::iter()`: borrow the head node when there is one. -/
def RawList.iter (s : RawList α) : Iter α :=
  ⟨if s.head = 0 then none else some s.head⟩

/-- `Iterator::next` for `Iter`: take the current node borrow, advance the
pointer along `node.next`, and yield `&node.elem`. -/
def Iter.next (s : RawList α) (it : Iter α) : Option α × Iter α :=
  match it.pointer with
  | none => (none, ⟨none⟩)
  | some p =>
    match readNode s p with
    | none => (none, ⟨none⟩)  -- UB in source (dangling borrow); unreachable under the invariant
    | some node =>
      (some node.elem, ⟨if node.next = 0 then none else some node.next⟩)

/-- `IterMut<'a, T>`: an optional mutable borrow of a node (its address). -/
structure IterMut (α : Type) where
  pointer : Option Nat
deriving Repr, DecidableEq

/-- `List::iter_mut()`: mutably borrow the head node when there is one
(note the source signature takes only `&self`). -/
def RawList.iter_mut (s : RawList α) : IterMut α :=
  ⟨if s.head = 0 then none else some s.head⟩

/-- `Iterator::next` for `IterMut`: the advance pointer is read from
`node.next` before the mutable borrow `&mut node.elem` is exposed; the
yielded borrow is the pair (target address, current value). -/
def IterMut.next (s : RawList α) (it : IterMut α) : Option (Nat × α) × IterMut α :=
  match it.pointer with
  | none => (none, ⟨none⟩)
  | some p =>
    match readNode s p with
    | none => (none, ⟨none⟩)  -- UB in source (dangling borrow); unreachable under the invariant
    | some node =>
      (some (p, node.elem), ⟨if node.next = 0 then none else some node.next⟩)

/-- `impl Drop for List`: `while let Some(_) = self.pop() {}`, instrumented
with the trace of freed node addresses (each `pop` frees `self.head`).
The fuel argument makes the recursion structural; enough fuel reaches the
empty queue. -/
def dropLoop : RawList α → Nat → List Nat × RawList α
  | s, 0 => ([], s)
  | s, fuel + 1 =>
    match pop s with
    | (none, _) => ([], s)      -- pop returned None without touching the state
    | (some _, s1) =>
      let r := dropLoop s1 fuel
      (s.head :: r.1, r.2)

/-- Writing through a mutable borrow of an element (`*borrow = y`): only the
`elem` field of the node at address `p` changes. -/
def writeElem (s : RawList α) (p : Nat) (y : α) : RawList α :=
  match readNode s p with
  | none => s
  | some n => { s with arena := s.arena.set (p - 1) (some ⟨y, n.next⟩) }

/-- Driving `Iter` to completion: the list of yielded elements and the final
iterator state. -/
def iterSteps (s : RawList α) : Iter α → Nat → List α × Iter α
  | it, 0 => ([], it)
  | it, fuel + 1 =>
    match Iter.next s it with
    | (none, it1) => ([], it1)
    | (some x, it1) =>
      let r := iterSteps s it1 fuel
      (x :: r.1, r.2)

/-- Driving `IterMut` to completion without writing through the borrows:
the yielded (address, value) pairs and the final iterator state. -/
def iterMutSteps (s : RawList α) : IterMut α → Nat → List (Nat × α) × IterMut α
  | it, 0 => ([], it)
  | it, fuel + 1 =>
    match IterMut.next s it with
    | (none, it1) => ([], it1)
    | (some x, it1) =>
      let r := iterMutSteps s it1 fuel
      (x :: r.1, r.2)

/-- Driving `IterMut` while the caller writes `f` of the yielded value back
through each yielded mutable borrow (e.g. `*v += 1`). -/
def iterMutRun (f : α → α) : RawList α → IterMut α → Nat → RawList α
  | s, _, 0 => s
  | s, it, fuel + 1 =>
    match IterMut.next s it with
    | (none, _) => s
    | (some (p, v), it1) => iterMutRun f (writeElem s p (f v)) it1 fuel

/-- Repeated `pop` until it yields `None`: the drained elements and the final
state. -/
def popDrain : RawList α → Nat → List α × RawList α
  | s, 0 => ([], s)
  | s, fuel + 1 =>
    match pop s with
    | (none, s1) => ([], s1)
    | (some x, s1) =>
      let r := popDrain s1 fuel
      (x :: r.1, r.2)

/-- Driving `IntoIter` to completion: the yielded elements and final state. -/
def intoIterSteps : IntoIter α → Nat → List α × IntoIter α
  | it, 0 => ([], it)
  | it, fuel + 1 =>
    match IntoIter.next it with
    | (none, it1) => ([], it1)
    | (some x, it1) =>
      let r := intoIterSteps it1 fuel
      (x :: r.1, r.2)

/-- `push` folded over a list of elements, starting from a given queue. -/
def pushAll (s : RawList α) (xs : List α) : RawList α :=
  xs.foldl push s

/-! ## The representation invariant -/

/-- `chainB s p ps`: starting at pointer `p` and following `next` links
visits exactly the addresses `ps`, every dereference succeeding, and the
last link is null. -/
def chainB (s : RawList α) : Nat → List Nat → Bool
  | p, [] => p == 0
  | p, q :: qs =>
    p == q && !(p == 0) &&
      match readNode s p with
      | none => false
      | some node => chainB s node.next qs

/-- Addresses of the live (not yet freed) nodes in the arena. -/
def liveAddrs (s : RawList α) : List Nat :=
  (List.range s.arena.length).filterMap fun i =>
    match s.arena.getD i none with
    | some _ => some (i + 1)
    | none => none

/-- The representation invariant, with the chain of addresses explicit:
the forward links from `head` traverse exactly `ps` and end with a null
link, `tail` is the last address of the chain (or null for the empty
queue), and every live node of the arena lies on the chain. -/
def WF (s : RawList α) (ps : List Nat) : Prop :=
  chainB s s.head ps = true ∧ s.tail = ps.getLastD 0 ∧ ∀ q ∈ liveAddrs s, q ∈ ps

instance (s : RawList α) (ps : List Nat) : Decidable (WF s ps) := by
  unfold WF; infer_instance

/-- The element values along a chain of addresses (skipping dead addresses;
under `chainB` none are dead). -/
def chainElems (s : RawList α) (ps : List Nat) : List α :=
  ps.filterMap fun p => (readNode s p).map (·.elem)

/-- States reachable from `List::new()` by `push` and `pop`. -/
inductive Reachable : RawList α → Prop
  | new : Reachable (RawList.new α)
  | push (s : RawList α) (x : α) : Reachable s → Reachable (push s x)
  | pop (s : RawList α) : Reachable s → Reachable (pop s).2

/-! ## Heap helper lemmas -/

theorem getD_set_ne {β : Type} (l : List β) (v d : β) {i j : Nat} (h : i ≠ j) :
    (l.set i v).getD j d = l.getD j d := by
  rw [List.getD_eq_getD_get?, List.getD_eq_getD_get?, List.get?_eq_getElem?,
    List.get?_eq_getElem?, List.getElem?_set_ne h]

theorem getD_set_self {β : Type} (l : List β) (v d : β) {i : Nat} (h : i < l.length) :
    (l.set i v).getD i d = v := by
  rw [List.getD_eq_getD_get?, List.get?_eq_getElem?, List.getElem?_set_eq_of_lt v h]
  rfl

theorem readNode_zero (s : RawList α) : readNode s 0 = none := rfl

theorem readNode_ne_zero {s : RawList α} {p : Nat} {n : Node α}
    (h : readNode s p = some n) : p ≠ 0 := by
  intro h0; subst h0; simp [readNode] at h

theorem readNode_lt_length {s : RawList α} {p : Nat} {n : Node α}
    (h : readNode s p = some n) : p - 1 < s.arena.length := by
  by_contra hge
  have hp : p ≠ 0 := readNode_ne_zero h
  rw [readNode, if_neg hp, List.getD_eq_default _ _ (Nat.le_of_not_lt hge)] at h
  exact Option.noConfusion h

theorem readNode_le_length {s : RawList α} {p : Nat} {n : Node α}
    (h : readNode s p = some n) : p ≤ s.arena.length := by
  have h1 := readNode_lt_length h
  have hp : p ≠ 0 := readNode_ne_zero h
  omega

/-- Membership in `liveAddrs` is exactly a successful dereference. -/
theorem mem_liveAddrs_iff {s : RawList α} {q : Nat} :
    q ∈ liveAddrs s ↔ (readNode s q).isSome := by
  constructor
  · intro hq
    rcases List.mem_filterMap.1 hq with ⟨i, hi, hmatch⟩
    rcases hcase : s.arena.getD i none with _ | n
    · rw [hcase] at hmatch; exact Option.noConfusion hmatch
    · rw [hcase] at hmatch
      have : q = i + 1 := (Option.some.inj hmatch).symm
      subst this
      rw [readNode, if_neg (Nat.succ_ne_zero i), Nat.add_sub_cancel, hcase]
      rfl
  · intro hq
    rcases hcase : readNode s q with _ | n
    · rw [hcase] at hq; simp at hq
    have hne : q ≠ 0 := readNode_ne_zero hcase
    have hlt : q - 1 < s.arena.length := readNode_lt_length hcase
    refine List.mem_filterMap.2 ⟨q - 1, List.mem_range.2 hlt, ?_⟩
    have hq1 : q - 1 + 1 = q := by omega
    rw [readNode, if_neg hne] at hcase
    rw [hcase, hq1]

/-! ## Chain lemmas -/

theorem chainB_nil_iff {s : RawList α} {p : Nat} :
    chainB s p [] = true ↔ p = 0 := by
  simp [chainB]

theorem chainB_cons_iff {s : RawList α} {p q : Nat} {qs : List Nat} :
    chainB s p (q :: qs) = true ↔
      p = q ∧ p ≠ 0 ∧ ∃ n, readNode s p = some n ∧ chainB s n.next qs = true := by
  constructor
  · intro h
    rw [chainB] at h
    rcases hcase : readNode s p with _ | n
    · rw [hcase] at h; simp at h
    · rw [hcase] at h
      simp only [Bool.and_eq_true, beq_iff_eq, Bool.not_eq_true', beq_eq_false_iff_ne] at h
      exact ⟨h.1.1, h.1.2, n, rfl, h.2⟩
  · rintro ⟨rfl, hne, n, hn, hch⟩
    rw [chainB, hn]
    simp [hne, hch]

/-- A chain only looks at the heap cells it traverses. -/
theorem chainB_frame {s s' : RawList α} {ps : List Nat}
    (hag : ∀ q ∈ ps, readNode s' q = readNode s q) :
    ∀ p, chainB s' p ps = chainB s p ps := by
  induction ps with
  | nil => intro p; rfl
  | cons q qs ih =>
    intro p
    by_cases hpq : p = q
    · subst hpq
      rw [chainB, chainB, hag p (List.mem_cons_self p qs)]
      rcases readNode s p with _ | n
      · rfl
      · have hq := ih (fun r hr => hag r (List.mem_cons_of_mem _ hr)) n.next
        simp [hq]
    · rw [chainB, chainB]
      have hb : (p == q) = false := by simp [hpq]
      rw [hb]
      simp

theorem chainB_mem_isSome {s : RawList α} :
    ∀ {ps : List Nat} {p q : Nat}, chainB s p ps = true → q ∈ ps →
      (readNode s q).isSome := by
  intro ps
  induction ps with
  | nil => intro p q _ hq; exact absurd hq (List.not_mem_nil q)
  | cons a qs ih =>
    intro p q hch hq
    rcases chainB_cons_iff.1 hch with ⟨rfl, _, n, hn, hrest⟩
    rcases List.mem_cons.1 hq with rfl | hq
    · rw [hn]; rfl
    · exact ih hrest hq

theorem chainB_mem_ne_zero {s : RawList α} {ps : List Nat} {p q : Nat}
    (hch : chainB s p ps = true) (hq : q ∈ ps) : q ≠ 0 := by
  intro h0; subst h0
  have := chainB_mem_isSome hch hq
  rw [readNode_zero] at this
  exact Bool.noConfusion this

theorem chainB_mem_le {s : RawList α} {ps : List Nat} {p q : Nat}
    (hch : chainB s p ps = true) (hq : q ∈ ps) : q ≤ s.arena.length := by
  rcases Option.isSome_iff_exists.1 (chainB_mem_isSome hch hq) with ⟨n, hn⟩
  exact readNode_le_length hn

/-- The walk from a pointer is deterministic. -/
theorem chainB_det {s : RawList α} :
    ∀ {ps : List Nat} {p : Nat} {qs : List Nat},
      chainB s p ps = true → chainB s p qs = true → ps = qs := by
  intro ps
  induction ps with
  | nil =>
    intro p qs h1 h2
    have hp : p = 0 := chainB_nil_iff.1 h1
    subst hp
    cases qs with
    | nil => rfl
    | cons b bs =>
      rcases chainB_cons_iff.1 h2 with ⟨_, hne, _⟩
      exact absurd rfl hne
  | cons a as ih =>
    intro p qs h1 h2
    rcases chainB_cons_iff.1 h1 with ⟨rfl, hne, n, hn, hrest⟩
    cases qs with
    | nil => exact absurd (chainB_nil_iff.1 h2) hne
    | cons b bs =>
      rcases chainB_cons_iff.1 h2 with ⟨hab, _, m, hm, hrest'⟩
      subst hab
      rw [hn] at hm
      cases Option.some.inj hm
      rw [ih hrest hrest']

/-- Any member of a chain starts its own (not longer) chain suffix. -/
theorem chainB_mem_chain {s : RawList α} :
    ∀ {ps : List Nat} {p q : Nat}, chainB s p ps = true → q ∈ ps →
      ∃ ts, chainB s q ts = true ∧ ts.length ≤ ps.length := by
  intro ps
  induction ps with
  | nil => intro p q _ hq; exact absurd hq (List.not_mem_nil q)
  | cons a as ih =>
    intro p q hch hq
    rcases chainB_cons_iff.1 hch with ⟨rfl, _, n, _, hrest⟩
    rcases List.mem_cons.1 hq with rfl | hq
    · exact ⟨q :: as, hch, Nat.le_refl _⟩
    · rcases ih hrest hq with ⟨ts, hts, hlen⟩
      exact ⟨ts, hts, Nat.le_succ_of_le hlen⟩

/-- The addresses of a chain are pairwise distinct. -/
theorem chainB_nodup {s : RawList α} :
    ∀ {ps : List Nat} {p : Nat}, chainB s p ps = true → ps.Nodup := by
  intro ps
  induction ps with
  | nil => intro p _; exact List.nodup_nil
  | cons a as ih =>
    intro p hch
    rcases chainB_cons_iff.1 hch with ⟨rfl, _, n, _, hrest⟩
    refine List.nodup_cons.2 ⟨?_, ih hrest⟩
    intro hmem
    rcases chainB_mem_chain hrest hmem with ⟨ts, hts, hlen⟩
    have := chainB_det hts hch
    subst this
    simp at hlen

/-- The last node of a chain has a null forward link. -/
theorem chainB_getLast {s : RawList α} :
    ∀ {ps : List Nat} {p q : Nat}, chainB s p ps = true → ps.getLast? = some q →
      ∃ n, readNode s q = some n ∧ n.next = 0 := by
  intro ps
  induction ps with
  | nil => intro p q _ hq; exact Option.noConfusion hq
  | cons a as ih =>
    intro p q hch hq
    rcases chainB_cons_iff.1 hch with ⟨rfl, _, n, hn, hrest⟩
    cases as with
    | nil =>
      cases Option.some.inj hq
      exact ⟨n, hn, chainB_nil_iff.1 hrest⟩
    | cons b bs =>
      rw [List.getLast?_cons_cons] at hq
      exact ih hrest hq

theorem chainElems_cons_of_some {s : RawList α} {a : Nat} {as : List Nat} {n : Node α}
    (hn : readNode s a = some n) :
    chainElems s (a :: as) = n.elem :: chainElems s as := by
  unfold chainElems
  rw [List.filterMap_cons, hn]
  rfl

theorem chainElems_length {s : RawList α} :
    ∀ {ps : List Nat} {p : Nat}, chainB s p ps = true →
      (chainElems s ps).length = ps.length := by
  intro ps
  induction ps with
  | nil => intro p _; rfl
  | cons a as ih =>
    intro p hch
    rcases chainB_cons_iff.1 hch with ⟨rfl, _, n, hn, hrest⟩
    rw [chainElems_cons_of_some hn, List.length_cons, ih hrest]
    rfl

theorem chainElems_frame {s s' : RawList α} {ps : List Nat}
    (hag : ∀ q ∈ ps, (readNode s' q).map (·.elem) = (readNode s q).map (·.elem)) :
    chainElems s' ps = chainElems s ps := by
  unfold chainElems
  exact List.filterMap_congr hag

theorem chainB_zero_iff {s : RawList α} {ps : List Nat} :
    chainB s 0 ps = true ↔ ps = [] := by
  constructor
  · intro h
    cases ps with
    | nil => rfl
    | cons a as =>
      rcases chainB_cons_iff.1 h with ⟨_, hne, _⟩
      exact absurd rfl hne
  · rintro rfl; rfl

theorem getLastD_irrel {ps : List Nat} (h : ps ≠ []) (a b : Nat) :
    ps.getLastD a = ps.getLastD b := by
  cases ps with
  | nil => exact absurd rfl h
  | cons c cs => rw [List.getLastD_cons, List.getLastD_cons]

/-! ## Facts about WF states -/

theorem wf_tail_zero {s : RawList α} {ps : List Nat}
    (h : WF s ps) (ht : s.tail = 0) : ps = [] ∧ s.head = 0 := by
  obtain ⟨hch, htail, _⟩ := h
  cases ps with
  | nil => exact ⟨rfl, chainB_nil_iff.1 hch⟩
  | cons c cs =>
    exfalso
    rw [ht, List.getLastD_cons] at htail
    have hmem : cs.getLastD c ∈ c :: cs := List.getLastD_mem_cons cs c
    exact chainB_mem_ne_zero hch hmem htail.symm

theorem wf_tail_mem {s : RawList α} {ps : List Nat}
    (h : WF s ps) (hne : ps ≠ []) : s.tail ∈ ps ∧ ps.getLast? = some s.tail := by
  obtain ⟨_, htail, _⟩ := h
  cases ps with
  | nil => exact absurd rfl hne
  | cons c cs =>
    constructor
    · rw [htail, List.getLastD_cons]
      exact List.getLastD_mem_cons cs c
    · rw [htail, List.getLastD_eq_getLast?]
      cases hcase : (c :: cs).getLast? with
      | none => exact absurd (List.getLast?_eq_none_iff.1 hcase) (List.cons_ne_nil c cs)
      | some v => rfl

/-- `pop` on a well-formed non-empty queue: returns the head element, frees
the head node, and preserves the invariant on the remaining chain. -/
theorem pop_cons {s : RawList α} {p : Nat} {ps : List Nat} (h : WF s (p :: ps)) :
    ∃ n, readNode s p = some n ∧ s.head = p ∧
      pop s = (some n.elem,
        { arena := s.arena.set (p - 1) none, head := n.next,
          tail := if n.next = 0 then 0 else s.tail }) ∧
      WF (pop s).2 ps ∧
      (∀ q ∈ ps, readNode (pop s).2 q = readNode s q) := by
  obtain ⟨hch, htail, hlive⟩ := h
  rcases chainB_cons_iff.1 hch with ⟨hh, hne, n, hn, hrest⟩
  subst hh
  have hplt : s.head - 1 < s.arena.length := readNode_lt_length hn
  have hpop : pop s = (some n.elem,
      { arena := s.arena.set (s.head - 1) none, head := n.next,
        tail := if n.next = 0 then 0 else s.tail }) := by
    rw [pop, if_neg hne, hn]
  have hnodup : (s.head :: ps).Nodup := chainB_nodup hch
  have hpnotin : s.head ∉ ps := (List.nodup_cons.1 hnodup).1
  -- the freed cell is not on the remaining chain
  have hframe : ∀ q ∈ ps, readNode (pop s).2 q = readNode s q := by
    intro q hq
    have hq0 : q ≠ 0 := chainB_mem_ne_zero hrest hq
    have hqp : q ≠ s.head := fun hqp => hpnotin (hqp ▸ hq)
    rw [hpop]
    show (if q = 0 then none else (s.arena.set (s.head - 1) none).getD (q - 1) none)
      = readNode s q
    rw [if_neg hq0, getD_set_ne _ _ _ (by omega : s.head - 1 ≠ q - 1),
      readNode, if_neg hq0]
  refine ⟨n, hn, rfl, hpop, ⟨?_, ?_, ?_⟩, hframe⟩
  · -- the remaining chain is intact
    have heq := chainB_frame (s := s) hframe n.next
    rw [hpop] at heq ⊢
    show chainB _ n.next ps = true
    rw [heq]
    exact hrest
  · -- tail bookkeeping
    rw [hpop]
    show (if n.next = 0 then 0 else s.tail) = ps.getLastD 0
    by_cases hnx : n.next = 0
    · rw [if_pos hnx]
      rw [hnx] at hrest
      rw [chainB_zero_iff.1 hrest]
      rfl
    · rw [if_neg hnx]
      have hpsne : ps ≠ [] := by
        intro hnil
        rw [hnil] at hrest
        exact hnx (chainB_nil_iff.1 hrest)
      rw [htail, List.getLastD_cons]
      exact getLastD_irrel hpsne s.head 0
  · -- all live nodes lie on the remaining chain
    intro q hq
    have hsome := mem_liveAddrs_iff.1 hq
    have hq0 : q ≠ 0 := by
      intro h0
      rw [h0, readNode_zero] at hsome
      exact Bool.noConfusion hsome
    by_cases hqp : q = s.head
    · exfalso
      have hidx : s.head - 1 = q - 1 := by omega
      have hql : q - 1 < s.arena.length := by omega
      have hnone : readNode (pop s).2 q = none := by
        rw [hpop]
        show (if q = 0 then none else (s.arena.set (s.head - 1) none).getD (q - 1) none) = none
        rw [if_neg hq0, hidx, getD_set_self _ _ _ hql]
      rw [hnone] at hsome
      exact Bool.noConfusion hsome
    · have heq : readNode (pop s).2 q = readNode s q := by
        rw [hpop]
        show (if q = 0 then none else (s.arena.set (s.head - 1) none).getD (q - 1) none)
          = readNode s q
        rw [if_neg hq0, getD_set_ne _ _ _ (by omega : s.head - 1 ≠ q - 1),
          readNode, if_neg hq0]
      rw [heq] at hsome
      have hmem : q ∈ s.head :: ps := hlive q (mem_liveAddrs_iff.2 hsome)
      rcases List.mem_cons.1 hmem with h1 | h1
      · exact absurd h1 hqp
      · exact h1

/-- Extending a chain by one fresh node: if the heap changes only at the old
last node (whose forward link now points to the fresh node) and the fresh
node has a null link, the walk traverses the old chain and then the fresh
node. -/
theorem chainB_snoc {s s' : RawList α} {pnew : Nat}
    (hnew : ∃ m, readNode s' pnew = some m ∧ m.next = 0) (hpnew : pnew ≠ 0) :
    ∀ {ps : List Nat} {p la : Nat}, chainB s p ps = true → ps.Nodup →
      ps.getLast? = some la →
      (∀ q ∈ ps, q ≠ la → readNode s' q = readNode s q) →
      (∀ t, readNode s la = some t → readNode s' la = some ⟨t.elem, pnew⟩) →
      chainB s' p (ps ++ [pnew]) = true := by
  intro ps
  induction ps with
  | nil => intro p la _ _ hla; exact absurd hla (by simp)
  | cons a as ih =>
    intro p la hch hnd hlast hmod hla
    rcases chainB_cons_iff.1 hch with ⟨rfl, ha0, n, hn, hrest⟩
    cases as with
    | nil =>
      have hla' : la = p := by
        simp only [List.getLast?_singleton] at hlast
        exact (Option.some.inj hlast).symm
      subst hla'
      rcases hnew with ⟨m, hm, hm0⟩
      refine chainB_cons_iff.2 ⟨rfl, ha0, ⟨n.elem, pnew⟩, hla n hn, ?_⟩
      refine chainB_cons_iff.2 ⟨rfl, hpnew, m, hm, ?_⟩
      rw [hm0]
      rfl
    | cons b bs =>
      refine chainB_cons_iff.2 ⟨rfl, ha0, ?_⟩
      have hlast' : (b :: bs).getLast? = some la := by
        rw [← List.getLast?_cons_cons]
        exact hlast
      have hmemla : la ∈ b :: bs := by
        rcases List.getLast?_eq_some_iff.1 hlast' with ⟨ys, hys⟩
        rw [hys]
        simp
      have hane : p ≠ la := by
        intro hcontra
        have : p ∈ b :: bs := hcontra ▸ hmemla
        exact (List.nodup_cons.1 hnd).1 this
      have hread : readNode s' p = readNode s p :=
        hmod p (List.mem_cons_self _ _) hane
      refine ⟨n, by rw [hread]; exact hn, ?_⟩
      exact ih hrest (List.nodup_cons.1 hnd).2 hlast'
        (fun q hq hqla => hmod q (List.mem_cons_of_mem _ hq) hqla) hla

/-- `push` on a well-formed queue: the invariant extends to the chain with
the fresh address appended, the abstract contents gain `x` at the back, the
fresh node holds `x` with a null link, the tail moves to the fresh node
(and the head too when the queue was empty, staying put otherwise, with the
old tail relinked), and no existing element value changes. -/
theorem push_wf {s : RawList α} {ps : List Nat} (h : WF s ps) (x : α) :
    WF (push s x) (ps ++ [s.arena.length + 1]) ∧
      chainElems (push s x) (ps ++ [s.arena.length + 1]) = chainElems s ps ++ [x] ∧
      readNode (push s x) (s.arena.length + 1) = some ⟨x, 0⟩ ∧
      (push s x).tail = s.arena.length + 1 ∧
      (s.tail = 0 → (push s x).head = s.arena.length + 1) ∧
      (s.tail ≠ 0 → (push s x).head = s.head ∧
        ∀ t, readNode s s.tail = some t →
          readNode (push s x) s.tail = some ⟨t.elem, s.arena.length + 1⟩) ∧
      (∀ q ∈ ps, (readNode (push s x) q).map (·.elem) = (readNode s q).map (·.elem)) := by
  obtain ⟨hch, htail, hlive⟩ := h
  by_cases htz : s.tail = 0
  · -- empty queue: the fresh node becomes both head and tail
    obtain ⟨hps, hhd⟩ := wf_tail_zero ⟨hch, htail, hlive⟩ htz
    subst hps
    have hpush : push s x =
        { arena := s.arena ++ [some (⟨x, 0⟩ : Node α)], head := s.arena.length + 1,
          tail := s.arena.length + 1 } := by
      simp [push, htz]
    have hreadnew : readNode (push s x) (s.arena.length + 1) = some (⟨x, 0⟩ : Node α) := by
      rw [hpush, readNode]
      rw [if_neg (Nat.succ_ne_zero _)]
      show (s.arena ++ [some (⟨x, 0⟩ : Node α)]).getD (s.arena.length + 1 - 1) none = _
      rw [Nat.add_sub_cancel, List.getD_append_right _ _ _ _ (Nat.le_refl _), Nat.sub_self]
      rfl
    have hreadsmall : ∀ q, q ≠ 0 → q ≤ s.arena.length →
        readNode (push s x) q = readNode s q := by
      intro q hq0 hqle
      rw [hpush, readNode, readNode, if_neg hq0, if_neg hq0]
      exact List.getD_append _ _ _ _ (by omega)
    have hreadbig : ∀ q, q > s.arena.length + 1 → readNode (push s x) q = none := by
      intro q hqgt
      rw [hpush, readNode, if_neg (by omega : q ≠ 0), List.getD_eq_default]
      simp only [List.length_append, List.length_singleton]
      omega
    refine ⟨⟨?_, ?_, ?_⟩, ?_, hreadnew, by rw [hpush], fun _ => by rw [hpush],
      fun hc => absurd htz hc, ?_⟩
    · -- chain is the single fresh node
      show chainB (push s x) (push s x).head ([] ++ [s.arena.length + 1]) = true
      have hh : (push s x).head = s.arena.length + 1 := by rw [hpush]
      rw [hh, List.nil_append]
      exact chainB_cons_iff.2 ⟨rfl, Nat.succ_ne_zero _, ⟨x, 0⟩, hreadnew, rfl⟩
    · rw [hpush]
      rfl
    · -- the fresh node is the only live one
      intro q hq
      have hsome := mem_liveAddrs_iff.1 hq
      have hq0 : q ≠ 0 := by
        intro h0
        rw [h0, readNode_zero] at hsome
        exact Bool.noConfusion hsome
      rcases Nat.lt_trichotomy q (s.arena.length + 1) with hlt | heq | hgt
      · exfalso
        rw [hreadsmall q hq0 (by omega)] at hsome
        exact List.not_mem_nil q (hlive q (mem_liveAddrs_iff.2 hsome))
      · subst heq
        simp
      · exfalso
        rw [hreadbig q hgt] at hsome
        exact Bool.noConfusion hsome
    · -- abstract contents
      show chainElems (push s x) ([] ++ [s.arena.length + 1]) = chainElems s [] ++ [x]
      rw [List.nil_append, chainElems_cons_of_some hreadnew]
      rfl
    · intro q hq
      exact absurd hq (List.not_mem_nil q)
  · -- non-empty queue: link the old tail to the fresh node
    have hpsne : ps ≠ [] := by
      intro hnil
      subst hnil
      exact htz (htail.trans rfl)
    obtain ⟨htmem, hlast⟩ := wf_tail_mem ⟨hch, htail, hlive⟩ hpsne
    rcases Option.isSome_iff_exists.1 (chainB_mem_isSome hch htmem) with ⟨t, ht⟩
    have htlt : s.tail - 1 < s.arena.length := readNode_lt_length ht
    have harena1 : (s.arena ++ [some (⟨x, 0⟩ : Node α)]).getD (s.tail - 1) none = some t := by
      rw [List.getD_append _ _ _ _ htlt]
      rw [readNode, if_neg htz] at ht
      exact ht
    have hpush : push s x =
        { arena := (s.arena ++ [some (⟨x, 0⟩ : Node α)]).set (s.tail - 1)
            (some (⟨t.elem, s.arena.length + 1⟩ : Node α)),
          head := s.head, tail := s.arena.length + 1 } := by
      simp only [push]
      rw [if_neg htz, harena1]
    -- pointwise description of the new heap
    have hreadnew : readNode (push s x) (s.arena.length + 1) = some (⟨x, 0⟩ : Node α) := by
      rw [hpush, readNode, if_neg (Nat.succ_ne_zero _)]
      show ((s.arena ++ [some (⟨x, 0⟩ : Node α)]).set (s.tail - 1)
        (some (⟨t.elem, s.arena.length + 1⟩ : Node α))).getD (s.arena.length + 1 - 1) none = _
      rw [Nat.add_sub_cancel, getD_set_ne _ _ _ (by omega : s.tail - 1 ≠ s.arena.length),
        List.getD_append_right _ _ _ _ (Nat.le_refl _), Nat.sub_self]
      rfl
    have hreadtail : readNode (push s x) s.tail
        = some (⟨t.elem, s.arena.length + 1⟩ : Node α) := by
      rw [hpush, readNode, if_neg htz]
      show ((s.arena ++ [some (⟨x, 0⟩ : Node α)]).set (s.tail - 1)
        (some (⟨t.elem, s.arena.length + 1⟩ : Node α))).getD (s.tail - 1) none = _
      rw [getD_set_self _ _ _ (by simp only [List.length_append, List.length_singleton]; omega)]
    have hreadother : ∀ q, q ≠ 0 → q ≠ s.tail → q ≤ s.arena.length →
        readNode (push s x) q = readNode s q := by
      intro q hq0 hqt hqle
      rw [hpush, readNode, readNode, if_neg hq0, if_neg hq0]
      rw [getD_set_ne _ _ _ (by omega : s.tail - 1 ≠ q - 1)]
      exact List.getD_append _ _ _ _ (by omega)
    have hreadbig : ∀ q, q > s.arena.length + 1 → readNode (push s x) q = none := by
      intro q hqgt
      rw [hpush, readNode, if_neg (by omega : q ≠ 0), List.getD_eq_default]
      simp only [List.length_set, List.length_append, List.length_singleton]
      omega
    have hnodup := chainB_nodup hch
    have hmodpres : ∀ q ∈ ps, q ≠ s.tail → readNode (push s x) q = readNode s q := by
      intro q hq hqt
      exact hreadother q (chainB_mem_ne_zero hch hq) hqt (chainB_mem_le hch hq)
    have hlachange : ∀ t', readNode s s.tail = some t' →
        readNode (push s x) s.tail = some (⟨t'.elem, s.arena.length + 1⟩ : Node α) := by
      intro t' ht'
      rw [ht] at ht'
      cases Option.some.inj ht'
      exact hreadtail
    have hchain : chainB (push s x) s.head (ps ++ [s.arena.length + 1]) = true :=
      chainB_snoc ⟨⟨x, 0⟩, hreadnew, rfl⟩ (Nat.succ_ne_zero _) hch hnodup hlast
        hmodpres hlachange
    have helems : ∀ q ∈ ps,
        (readNode (push s x) q).map (·.elem) = (readNode s q).map (·.elem) := by
      intro q hq
      by_cases hqt : q = s.tail
      · subst hqt
        rw [hreadtail, ht]
        rfl
      · rw [hmodpres q hq hqt]
    refine ⟨⟨?_, ?_, ?_⟩, ?_, hreadnew, by rw [hpush],
      fun hc => absurd hc htz, fun _ => ⟨by rw [hpush], hlachange⟩, helems⟩
    · have hh : (push s x).head = s.head := by rw [hpush]
      rw [hh]
      exact hchain
    · have hh : (push s x).tail = s.arena.length + 1 := by rw [hpush]
      rw [hh, List.getLastD_concat]
    · -- live nodes of the new heap lie on the extended chain
      intro q hq
      have hsome := mem_liveAddrs_iff.1 hq
      have hq0 : q ≠ 0 := by
        intro h0
        rw [h0, readNode_zero] at hsome
        exact Bool.noConfusion hsome
      by_cases hqt : q = s.tail
      · subst hqt
        exact List.mem_append_left _ htmem
      · rcases Nat.lt_trichotomy q (s.arena.length + 1) with hlt | heq | hgt
        · rw [hreadother q hq0 hqt (by omega)] at hsome
          exact List.mem_append_left _ (hlive q (mem_liveAddrs_iff.2 hsome))
        · subst heq
          exact List.mem_append_right _ (List.mem_singleton.2 rfl)
        · exfalso
          rw [hreadbig q hgt] at hsome
          exact Bool.noConfusion hsome
    · -- abstract contents gain x at the back
      unfold chainElems
      rw [List.filterMap_append]
      have h1 : ps.filterMap (fun p => (readNode (push s x) p).map (·.elem))
          = ps.filterMap (fun p => (readNode s p).map (·.elem)) :=
        List.filterMap_congr helems
      rw [h1]
      show _ = _ ++ [x]
      rw [List.filterMap_cons, hreadnew]
      rfl

/-- The empty list state is well formed (with the empty chain). -/
theorem wf_new : WF (RawList.new α) [] := by
  refine ⟨rfl, rfl, ?_⟩
  intro q hq
  simp [liveAddrs, RawList.new] at hq

/-- A state that is well formed with the empty chain has null head and tail
and no live node at all. -/
theorem wf_nil_empty {s : RawList α} (h : WF s []) :
    s.head = 0 ∧ s.tail = 0 ∧ liveAddrs s = [] := by
  obtain ⟨hch, htail, hlive⟩ := h
  refine ⟨chainB_nil_iff.1 hch, htail, ?_⟩
  cases hcase : liveAddrs s with
  | nil => rfl
  | cons a as =>
    exfalso
    have : a ∈ liveAddrs s := by rw [hcase]; exact List.mem_cons_self _ _
    exact List.not_mem_nil a (hlive a this)

/-- `pop` on a null head returns `None` and leaves the state untouched. -/
theorem pop_empty {s : RawList α} (h : s.head = 0) : pop s = (none, s) := by
  rw [pop, if_pos h]

theorem peek_empty {s : RawList α} (h : s.head = 0) : peek s = none := by
  rw [peek, if_pos h]

theorem peek_mut_empty {s : RawList α} (h : s.head = 0) : peek_mut s = none := by
  rw [peek_mut, if_pos h]

/-- Every state reachable by `new`/`push`/`pop` is well formed. -/
theorem reachable_wf {s : RawList α} (h : Reachable s) : ∃ ps, WF s ps := by
  induction h with
  | new => exact ⟨[], wf_new⟩
  | push s x _ ih =>
    rcases ih with ⟨ps, hwf⟩
    exact ⟨ps ++ [s.arena.length + 1], (push_wf hwf x).1⟩
  | pop s _ ih =>
    rcases ih with ⟨ps, hwf⟩
    cases ps with
    | nil =>
      rcases wf_nil_empty hwf with ⟨hh, _, _⟩
      rw [pop_empty hh]
      exact ⟨[], hwf⟩
    | cons p ps =>
      rcases pop_cons hwf with ⟨n, _, _, _, hwf', _⟩
      exact ⟨ps, hwf'⟩

/-- Repeatedly popping a well-formed queue with as much fuel as the chain is
long drains exactly the abstract contents and leaves an empty well-formed
state. -/
theorem popDrain_wf {s : RawList α} {ps : List Nat} (h : WF s ps) :
    (popDrain s ps.length).1 = chainElems s ps ∧ WF (popDrain s ps.length).2 [] := by
  induction ps generalizing s with
  | nil => exact ⟨rfl, h⟩
  | cons a as ih =>
    rcases pop_cons h with ⟨n, hread, hh, hpop, hwf', hframe⟩
    have helems : chainElems (pop s).2 as = chainElems s as :=
      chainElems_frame (fun q hq => by rw [hframe q hq])
    have ihs := ih hwf'
    have hstep : popDrain s ((a :: as).length)
        = (n.elem :: (popDrain (pop s).2 as.length).1, (popDrain (pop s).2 as.length).2) := by
      show popDrain s (as.length + 1) = _
      rw [popDrain, hpop]
    rw [hstep]
    exact ⟨by rw [ihs.1, helems, chainElems_cons_of_some hread], ihs.2⟩

/-- The drop loop with enough fuel frees exactly the chain addresses, in
chain order, and leaves an empty state. -/
theorem dropLoop_wf {s : RawList α} {ps : List Nat} (h : WF s ps) :
    (dropLoop s ps.length).1 = ps ∧ WF (dropLoop s ps.length).2 [] := by
  induction ps generalizing s with
  | nil => exact ⟨rfl, h⟩
  | cons a as ih =>
    rcases pop_cons h with ⟨n, hread, hh, hpop, hwf', hframe⟩
    have ihs := ih hwf'
    have hstep : dropLoop s ((a :: as).length)
        = (s.head :: (dropLoop (pop s).2 as.length).1, (dropLoop (pop s).2 as.length).2) := by
      show dropLoop s (as.length + 1) = _
      rw [dropLoop, hpop]
    rw [hstep]
    exact ⟨by rw [ihs.1, hh], ihs.2⟩

/-- With a null head the drop loop is a no-op, whatever the fuel. -/
theorem dropLoop_empty {s : RawList α} (h : s.head = 0) (fuel : Nat) :
    dropLoop s fuel = ([], s) := by
  cases fuel with
  | zero => rfl
  | succ n => rw [dropLoop, pop_empty h]

/-- With a null head repeated popping yields nothing, whatever the fuel. -/
theorem popDrain_empty {s : RawList α} (h : s.head = 0) (fuel : Nat) :
    popDrain s fuel = ([], s) := by
  cases fuel with
  | zero => rfl
  | succ n => rw [popDrain, pop_empty h]

/-- `IntoIter` is a verbatim wrapper around repeated `pop`. -/
theorem intoIterSteps_eq_popDrain (s : RawList α) (fuel : Nat) :
    intoIterSteps (RawList.into_iter s) fuel
      = ((popDrain s fuel).1, ⟨(popDrain s fuel).2⟩) := by
  induction fuel generalizing s with
  | zero => rfl
  | succ n ih =>
    rw [intoIterSteps, popDrain]
    have hnext : IntoIter.next (RawList.into_iter s) = ((pop s).1, ⟨(pop s).2⟩) := rfl
    rw [hnext]
    rcases hcase : pop s with ⟨x?, s1⟩
    cases x? with
    | none => rfl
    | some x =>
      show (x :: (intoIterSteps (RawList.into_iter s1) n).1,
          (intoIterSteps (RawList.into_iter s1) n).2) = _
      rw [ih s1]

/-- Walking `Iter` along a chain yields exactly the chain's elements and
ends with an exhausted iterator. -/
theorem iterSteps_chain {s : RawList α} :
    ∀ {ps : List Nat} {p : Nat}, chainB s p ps = true →
      iterSteps s ⟨if p = 0 then none else some p⟩ ps.length
        = (chainElems s ps, ⟨none⟩) := by
  intro ps
  induction ps with
  | nil =>
    intro p hch
    rw [chainB_nil_iff.1 hch]
    rfl
  | cons a as ih =>
    intro p hch
    rcases chainB_cons_iff.1 hch with ⟨rfl, hne, n, hn, hrest⟩
    have hnext : Iter.next s ⟨if p = 0 then none else some p⟩
        = (some n.elem, ⟨if n.next = 0 then none else some n.next⟩) := by
      rw [if_neg hne]
      show Iter.next s ⟨some p⟩ = _
      rw [Iter.next]
      simp only [hn]
    have hstep : iterSteps s ⟨if p = 0 then none else some p⟩ ((p :: as).length)
        = (n.elem :: (iterSteps s ⟨if n.next = 0 then none else some n.next⟩ as.length).1,
           (iterSteps s ⟨if n.next = 0 then none else some n.next⟩ as.length).2) := by
      show iterSteps s _ (as.length + 1) = _
      rw [iterSteps, hnext]
    rw [hstep, ih hrest, chainElems_cons_of_some hn]

/-- Walking `IterMut` along a chain (without writing) yields each node's
address and value, in chain order, and ends exhausted. -/
theorem iterMutSteps_chain {s : RawList α} :
    ∀ {ps : List Nat} {p : Nat}, chainB s p ps = true →
      iterMutSteps s ⟨if p = 0 then none else some p⟩ ps.length
        = (ps.filterMap (fun q => (readNode s q).map (fun n => (q, n.elem))), ⟨none⟩) := by
  intro ps
  induction ps with
  | nil =>
    intro p hch
    rw [chainB_nil_iff.1 hch]
    rfl
  | cons a as ih =>
    intro p hch
    rcases chainB_cons_iff.1 hch with ⟨rfl, hne, n, hn, hrest⟩
    have hnext : IterMut.next s ⟨if p = 0 then none else some p⟩
        = (some (p, n.elem), ⟨if n.next = 0 then none else some n.next⟩) := by
      rw [if_neg hne]
      show IterMut.next s ⟨some p⟩ = _
      rw [IterMut.next]
      simp only [hn]
    have hstep : iterMutSteps s ⟨if p = 0 then none else some p⟩ ((p :: as).length)
        = ((p, n.elem)
            :: (iterMutSteps s ⟨if n.next = 0 then none else some n.next⟩ as.length).1,
           (iterMutSteps s ⟨if n.next = 0 then none else some n.next⟩ as.length).2) := by
      show iterMutSteps s _ (as.length + 1) = _
      rw [iterMutSteps, hnext]
    rw [hstep, ih hrest, List.filterMap_cons, hn]
    rfl

/-- A modification that may change element values but keeps every `next`
link on the chain leaves the chain shape intact. -/
theorem chainB_frame_mapElem {s s' : RawList α} (g : α → α) {ps : List Nat}
    (hag : ∀ q ∈ ps,
      readNode s' q = (readNode s q).map (fun n => ⟨g n.elem, n.next⟩)) :
    ∀ p, chainB s' p ps = chainB s p ps := by
  induction ps with
  | nil => intro p; rfl
  | cons q qs ih =>
    intro p
    by_cases hpq : p = q
    · subst hpq
      rw [chainB, chainB, hag p (List.mem_cons_self p qs)]
      rcases readNode s p with _ | n
      · rfl
      · have hq := ih (fun r hr => hag r (List.mem_cons_of_mem _ hr)) n.next
        simp [hq]
    · rw [chainB, chainB]
      have hb : (p == q) = false := by simp [hpq]
      rw [hb]
      simp

/-- Under the same kind of modification the chain's element values are
mapped by `g`. -/
theorem chainElems_mapElem {s s' : RawList α} (g : α → α) :
    ∀ {ps : List Nat} {p : Nat}, chainB s p ps = true →
      (∀ q ∈ ps,
        readNode s' q = (readNode s q).map (fun n => ⟨g n.elem, n.next⟩)) →
      chainElems s' ps = (chainElems s ps).map g := by
  intro ps
  induction ps with
  | nil => intro p _ _; rfl
  | cons a as ih =>
    intro p hch hag
    rcases chainB_cons_iff.1 hch with ⟨rfl, _, n, hn, hrest⟩
    have ha' : readNode s' p = some (⟨g n.elem, n.next⟩ : Node α) := by
      rw [hag p (List.mem_cons_self _ _), hn]
      rfl
    rw [chainElems_cons_of_some ha', chainElems_cons_of_some hn, List.map_cons]
    rw [ih hrest (fun q hq => hag q (List.mem_cons_of_mem _ hq))]

/-- Driving `IterMut` along a chain while writing `f` through every yielded
borrow: head, tail and heap size are untouched, off-chain cells are
untouched, and every chain cell keeps its link with its element mapped
by `f`. -/
theorem iterMutRun_chain (f : α → α) :
    ∀ {ps : List Nat} (s : RawList α) {p : Nat}, chainB s p ps = true → ps.Nodup →
      (iterMutRun f s ⟨if p = 0 then none else some p⟩ ps.length).head = s.head ∧
      (iterMutRun f s ⟨if p = 0 then none else some p⟩ ps.length).tail = s.tail ∧
      (iterMutRun f s ⟨if p = 0 then none else some p⟩ ps.length).arena.length
        = s.arena.length ∧
      (∀ q, q ∉ ps →
        readNode (iterMutRun f s ⟨if p = 0 then none else some p⟩ ps.length) q
          = readNode s q) ∧
      (∀ q ∈ ps,
        readNode (iterMutRun f s ⟨if p = 0 then none else some p⟩ ps.length) q
          = (readNode s q).map (fun n => ⟨f n.elem, n.next⟩)) := by
  intro ps
  induction ps with
  | nil =>
    intro s p hch _
    rw [chainB_nil_iff.1 hch]
    exact ⟨rfl, rfl, rfl, fun q _ => rfl, fun q hq => absurd hq (List.not_mem_nil q)⟩
  | cons a as ih =>
    intro s p hch hnd
    rcases chainB_cons_iff.1 hch with ⟨rfl, hne, n, hn, hrest⟩
    have hanotin : p ∉ as := (List.nodup_cons.1 hnd).1
    have halt : p - 1 < s.arena.length := readNode_lt_length hn
    -- the write through the first yielded borrow
    have hs1 : writeElem s p (f n.elem)
        = { s with arena := s.arena.set (p - 1) (some ⟨f n.elem, n.next⟩) } := by
      rw [writeElem, hn]
    have hs1read : ∀ q, q ≠ p →
        readNode (writeElem s p (f n.elem)) q = readNode s q := by
      intro q hq
      by_cases hq0 : q = 0
      · subst hq0
        rw [readNode_zero, readNode_zero]
      · rw [hs1, readNode, readNode, if_neg hq0, if_neg hq0]
        exact getD_set_ne _ _ _ (by omega)
    have hs1reada : readNode (writeElem s p (f n.elem)) p
        = some (⟨f n.elem, n.next⟩ : Node α) := by
      rw [hs1, readNode, if_neg hne]
      exact getD_set_self _ _ _ (by omega)
    have hs1chain : chainB (writeElem s p (f n.elem)) n.next as = true := by
      rw [chainB_frame (fun q hq => hs1read q (fun hqa => hanotin (hqa ▸ hq))) n.next]
      exact hrest
    have hnext : IterMut.next s ⟨if p = 0 then none else some p⟩
        = (some (p, n.elem), ⟨if n.next = 0 then none else some n.next⟩) := by
      rw [if_neg hne]
      show IterMut.next s ⟨some p⟩ = _
      rw [IterMut.next]
      simp only [hn]
    have hstep : iterMutRun f s ⟨if p = 0 then none else some p⟩ ((p :: as).length)
        = iterMutRun f (writeElem s p (f n.elem))
            ⟨if n.next = 0 then none else some n.next⟩ as.length := by
      show iterMutRun f s _ (as.length + 1) = _
      rw [iterMutRun, hnext]
    rcases ih (writeElem s p (f n.elem)) hs1chain (List.nodup_cons.1 hnd).2 with
      ⟨ihh, iht, ihl, ihout, ihin⟩
    have hs1head : (writeElem s p (f n.elem)).head = s.head := by rw [hs1]
    have hs1tail : (writeElem s p (f n.elem)).tail = s.tail := by rw [hs1]
    have hs1len : (writeElem s p (f n.elem)).arena.length = s.arena.length := by
      rw [hs1]
      exact List.length_set _ _ _
    refine ⟨?_, ?_, ?_, ?_, ?_⟩
    · rw [hstep, ihh, hs1head]
    · rw [hstep, iht, hs1tail]
    · rw [hstep, ihl, hs1len]
    · intro q hq
      have hqa : q ≠ p := fun hc => hq (hc ▸ List.mem_cons_self _ _)
      have hqas : q ∉ as := fun hc => hq (List.mem_cons_of_mem _ hc)
      rw [hstep, ihout q hqas, hs1read q hqa]
    · intro q hq
      rcases List.mem_cons.1 hq with rfl | hqas
      · rw [hstep, ihout q hanotin, hs1reada, hn]
        rfl
      · have hqa : q ≠ p := fun hc => hanotin (hc ▸ hqas)
        rw [hstep, ihin q hqas, hs1read q hqa]

/-- Pushing a whole list of elements onto a well-formed queue appends them
to the abstract contents. -/
theorem pushAll_wf :
    ∀ (xs : List α) (s : RawList α) (ps : List Nat), WF s ps →
      ∃ ps', WF (pushAll s xs) ps' ∧
        chainElems (pushAll s xs) ps' = chainElems s ps ++ xs ∧
        ps'.length = ps.length + xs.length := by
  intro xs
  induction xs with
  | nil =>
    intro s ps h
    refine ⟨ps, h, ?_, rfl⟩
    rw [List.append_nil]
    rfl
  | cons x xs ih =>
    intro s ps h
    obtain ⟨hwf', helems', _, _, _, _, _⟩ := push_wf h x
    rcases ih (push s x) (ps ++ [s.arena.length + 1]) hwf' with ⟨ps', hwf'', helems'', hlen⟩
    refine ⟨ps', hwf'', ?_, ?_⟩
    · show chainElems (pushAll (push s x) xs) ps' = _
      rw [helems'', helems', List.append_assoc]
      rfl
    · rw [hlen, List.length_append]
      simp [Nat.add_assoc, Nat.add_comm, Nat.add_left_comm]

/-- The values yielded by the mutable traversal are the chain's elements. -/
theorem chainPairs_snd (s : RawList α) (ps : List Nat) :
    (ps.filterMap (fun q => (readNode s q).map (fun n => (q, n.elem)))).map Prod.snd
      = chainElems s ps := by
  induction ps with
  | nil => rfl
  | cons a as ih =>
    unfold chainElems
    rw [List.filterMap_cons, List.filterMap_cons]
    cases readNode s a with
    | none => exact ih
    | some n =>
      show ((a, n.elem)
          :: as.filterMap (fun q => (readNode s q).map (fun m => (q, m.elem)))).map Prod.snd
        = n.elem :: as.filterMap (fun q => (readNode s q).map (·.elem))
      rw [List.map_cons, ih]
      rfl

/-! ## Claim theorems -/

/-- Claim C1: for every sequence of elements pushed onto a fresh queue,
successive `pop` calls return those elements in push order, and once the
queue is empty `pop` returns `None` and leaves the state unchanged. -/
theorem c1_fifo_order {α : Type} (xs : List α) :
    (popDrain (pushAll (RawList.new α) xs) xs.length).1 = xs ∧
    pop (popDrain (pushAll (RawList.new α) xs) xs.length).2
      = (none, (popDrain (pushAll (RawList.new α) xs) xs.length).2) := by
  rcases pushAll_wf xs (RawList.new α) [] wf_new with ⟨ps', hwf, helems, hlen⟩
  have hlen' : ps'.length = xs.length := by
    rw [hlen]
    simp
  have helems' : chainElems (pushAll (RawList.new α) xs) ps' = xs := by
    rw [helems]
    rfl
  have hdrain := popDrain_wf hwf
  rw [hlen'] at hdrain
  rcases wf_nil_empty hdrain.2 with ⟨hh, _, _⟩
  exact ⟨by rw [hdrain.1, helems'], pop_empty hh⟩

/-- Claim C2: every state reachable by `new`/`push`/`pop` satisfies the
structural invariant: head and tail are both null, or both are non-null and
the forward-link chain from head visits every live node exactly once,
ending exactly at tail whose link is null; moreover popping a one-node
queue resets both head and tail to null. -/
theorem c2_structural_invariant {α : Type} (s : RawList α) (h : Reachable s) :
    ((s.head = 0 ∧ s.tail = 0) ∨
      (s.head ≠ 0 ∧ s.tail ≠ 0 ∧ ∃ ps, ps ≠ [] ∧
        chainB s s.head ps = true ∧
        ps.getLast? = some s.tail ∧
        ps.Nodup ∧
        (∀ q ∈ liveAddrs s, q ∈ ps) ∧
        (∀ q ∈ ps, q ∈ liveAddrs s) ∧
        (∃ n, readNode s s.tail = some n ∧ n.next = 0))) ∧
    (∀ p, WF s [p] → (pop s).2.head = 0 ∧ (pop s).2.tail = 0) := by
  constructor
  · rcases reachable_wf h with ⟨ps, hwf⟩
    cases ps with
    | nil =>
      rcases wf_nil_empty hwf with ⟨hh, ht, _⟩
      exact Or.inl ⟨hh, ht⟩
    | cons a as =>
      obtain ⟨hch, htail, hlive⟩ := hwf
      rcases chainB_cons_iff.1 hch with ⟨hh, hne, n, hn, hrest⟩
      obtain ⟨htmem, hlast⟩ := wf_tail_mem ⟨hch, htail, hlive⟩ (List.cons_ne_nil a as)
      refine Or.inr ⟨hne, chainB_mem_ne_zero hch htmem, a :: as,
        List.cons_ne_nil a as, hch, hlast, chainB_nodup hch, hlive, ?_, ?_⟩
      · intro q hq
        exact mem_liveAddrs_iff.2 (chainB_mem_isSome hch hq)
      · exact chainB_getLast hch hlast
  · intro p hwf1
    rcases pop_cons hwf1 with ⟨n, hread, hh, hpop, hwf', _⟩
    have hnx : n.next = 0 := by
      obtain ⟨hch1, _, _⟩ := hwf1
      rcases chainB_cons_iff.1 hch1 with ⟨_, _, m, hm, hrest⟩
      rw [← hh] at hread
      rw [hread] at hm
      cases Option.some.inj hm
      exact chainB_nil_iff.1 hrest
    rw [hpop]
    show n.next = 0 ∧ (if n.next = 0 then 0 else s.tail) = 0
    rw [hnx]
    exact ⟨rfl, rfl⟩

/-- Witness for C2 at the concrete reachable state `push(new, 5)`. -/
theorem c2_structural_invariant_witness :
    (((push (RawList.new Nat) 5).head = 0 ∧ (push (RawList.new Nat) 5).tail = 0) ∨
      ((push (RawList.new Nat) 5).head ≠ 0 ∧ (push (RawList.new Nat) 5).tail ≠ 0 ∧
        ∃ ps, ps ≠ [] ∧
        chainB (push (RawList.new Nat) 5) (push (RawList.new Nat) 5).head ps = true ∧
        ps.getLast? = some (push (RawList.new Nat) 5).tail ∧
        ps.Nodup ∧
        (∀ q ∈ liveAddrs (push (RawList.new Nat) 5), q ∈ ps) ∧
        (∀ q ∈ ps, q ∈ liveAddrs (push (RawList.new Nat) 5)) ∧
        (∃ n, readNode (push (RawList.new Nat) 5) (push (RawList.new Nat) 5).tail = some n ∧
          n.next = 0))) ∧
    (∀ p, WF (push (RawList.new Nat) 5) [p] →
      (pop (push (RawList.new Nat) 5)).2.head = 0 ∧
      (pop (push (RawList.new Nat) 5)).2.tail = 0) :=
  c2_structural_invariant (push (RawList.new Nat) 5)
    (Reachable.push (RawList.new Nat) 5 Reachable.new)

/-- Claim C4: on a queue with a null head, `pop`, `peek` and `peek_mut` all
return `None` (no error) and the state — head, tail and heap — is left
completely unchanged (`pop` returns the very same state; `peek` and
`peek_mut` are read-only by construction). -/
theorem c4_empty_absent {α : Type} (s : RawList α) (h : s.head = 0) :
    pop s = (none, s) ∧ peek s = none ∧ peek_mut s = none :=
  ⟨pop_empty h, peek_empty h, peek_mut_empty h⟩

/-- Witness for C4 at the empty queue. -/
theorem c4_empty_absent_witness :
    pop (RawList.new Nat) = (none, RawList.new Nat) ∧
    peek (RawList.new Nat) = none ∧ peek_mut (RawList.new Nat) = none :=
  c4_empty_absent (RawList.new Nat) rfl

/-- Claim C5: `push` allocates a fresh node holding the element with a null
link; on an empty queue it becomes both head and tail, otherwise the old
tail is relinked to it and it becomes the new tail; the abstract length
grows by exactly one and no existing element value changes. -/
theorem c5_push_spec {α : Type} (s : RawList α) (ps : List Nat) (x : α) (h : WF s ps) :
    readNode (push s x) (s.arena.length + 1) = some ⟨x, 0⟩ ∧
    (s.tail = 0 → (push s x).head = s.arena.length + 1) ∧
    (push s x).tail = s.arena.length + 1 ∧
    (s.tail ≠ 0 → (push s x).head = s.head ∧
      ∀ t, readNode s s.tail = some t →
        readNode (push s x) s.tail = some ⟨t.elem, s.arena.length + 1⟩) ∧
    WF (push s x) (ps ++ [s.arena.length + 1]) ∧
    chainElems (push s x) (ps ++ [s.arena.length + 1]) = chainElems s ps ++ [x] ∧
    (chainElems (push s x) (ps ++ [s.arena.length + 1])).length
      = (chainElems s ps).length + 1 ∧
    (∀ q ∈ ps, (readNode (push s x) q).map (·.elem) = (readNode s q).map (·.elem)) := by
  obtain ⟨hwf, helems, hnew, htl, hemp, hnemp, hpres⟩ := push_wf h x
  refine ⟨hnew, hemp, htl, hnemp, hwf, helems, ?_, hpres⟩
  rw [helems, List.length_append]
  rfl

/-- Witness for C5: pushing 7 onto the one-element queue `push(new, 5)`. -/
theorem c5_push_spec_witness :
    WF (push (RawList.new Nat) 5) [1] ∧
    (readNode (push (push (RawList.new Nat) 5) 7)
        ((push (RawList.new Nat) 5).arena.length + 1) = some ⟨7, 0⟩ ∧
    ((push (RawList.new Nat) 5).tail = 0 →
      (push (push (RawList.new Nat) 5) 7).head
        = (push (RawList.new Nat) 5).arena.length + 1) ∧
    (push (push (RawList.new Nat) 5) 7).tail
      = (push (RawList.new Nat) 5).arena.length + 1 ∧
    ((push (RawList.new Nat) 5).tail ≠ 0 →
      (push (push (RawList.new Nat) 5) 7).head = (push (RawList.new Nat) 5).head ∧
      ∀ t, readNode (push (RawList.new Nat) 5) (push (RawList.new Nat) 5).tail = some t →
        readNode (push (push (RawList.new Nat) 5) 7) (push (RawList.new Nat) 5).tail
          = some ⟨t.elem, (push (RawList.new Nat) 5).arena.length + 1⟩) ∧
    WF (push (push (RawList.new Nat) 5) 7)
      ([1] ++ [(push (RawList.new Nat) 5).arena.length + 1]) ∧
    chainElems (push (push (RawList.new Nat) 5) 7)
        ([1] ++ [(push (RawList.new Nat) 5).arena.length + 1])
      = chainElems (push (RawList.new Nat) 5) [1] ++ [7] ∧
    (chainElems (push (push (RawList.new Nat) 5) 7)
        ([1] ++ [(push (RawList.new Nat) 5).arena.length + 1])).length
      = (chainElems (push (RawList.new Nat) 5) [1]).length + 1 ∧
    (∀ q ∈ [1], (readNode (push (push (RawList.new Nat) 5) 7) q).map (·.elem)
      = (readNode (push (RawList.new Nat) 5) q).map (·.elem))) :=
  ⟨by decide, c5_push_spec (push (RawList.new Nat) 5) [1] 7 (by decide)⟩

/-- Claim C6: the drop loop on a queue whose chain is `ps` frees exactly the
`ps.length` chain nodes, each exactly once, in head-to-tail order; it
terminates (after `ps.length` iterations the queue is empty and every
further iteration is a no-op), and on an already-empty queue it is a no-op
for any fuel. -/
theorem c6_drop_teardown {α : Type} (s : RawList α) (ps : List Nat) (h : WF s ps) :
    (dropLoop s ps.length).1 = ps ∧
    ps.Nodup ∧
    (dropLoop s ps.length).2.head = 0 ∧
    (dropLoop s ps.length).2.tail = 0 ∧
    liveAddrs (dropLoop s ps.length).2 = [] ∧
    (∀ fuel, dropLoop (dropLoop s ps.length).2 fuel = ([], (dropLoop s ps.length).2)) ∧
    (s.head = 0 → ∀ fuel, dropLoop s fuel = ([], s)) := by
  obtain ⟨htrace, hwf'⟩ := dropLoop_wf h
  rcases wf_nil_empty hwf' with ⟨hh, ht, hl⟩
  exact ⟨htrace, chainB_nodup h.1, hh, ht, hl,
    fun fuel => dropLoop_empty hh fuel, fun h0 fuel => dropLoop_empty h0 fuel⟩

/-- Witness for C6 on the two-element queue `push(push(new, 1), 2)`. -/
theorem c6_drop_teardown_witness :
    WF (push (push (RawList.new Nat) 1) 2) [1, 2] ∧
    ((dropLoop (push (push (RawList.new Nat) 1) 2) ([1, 2] : List Nat).length).1 = [1, 2] ∧
    ([1, 2] : List Nat).Nodup ∧
    (dropLoop (push (push (RawList.new Nat) 1) 2) ([1, 2] : List Nat).length).2.head = 0 ∧
    (dropLoop (push (push (RawList.new Nat) 1) 2) ([1, 2] : List Nat).length).2.tail = 0 ∧
    liveAddrs (dropLoop (push (push (RawList.new Nat) 1) 2)
      ([1, 2] : List Nat).length).2 = [] ∧
    (∀ fuel, dropLoop (dropLoop (push (push (RawList.new Nat) 1) 2)
        ([1, 2] : List Nat).length).2 fuel
      = ([], (dropLoop (push (push (RawList.new Nat) 1) 2)
          ([1, 2] : List Nat).length).2)) ∧
    ((push (push (RawList.new Nat) 1) 2).head = 0 →
      ∀ fuel, dropLoop (push (push (RawList.new Nat) 1) 2) fuel
        = ([], push (push (RawList.new Nat) 1) 2))) :=
  ⟨by decide, c6_drop_teardown (push (push (RawList.new Nat) 1) 2) [1, 2] (by decide)⟩

/-- Claim C7: driving `IntoIter` is step-for-step the same as repeatedly
calling `pop` on the owned queue (for any number of steps); on a
well-formed queue it yields exactly the abstract contents, afterwards its
`next` returns `None`, and no live node is left behind. -/
theorem c7_into_iter_refines_pop {α : Type} (s : RawList α) (ps : List Nat)
    (h : WF s ps) :
    (∀ fuel, intoIterSteps (RawList.into_iter s) fuel
      = ((popDrain s fuel).1, ⟨(popDrain s fuel).2⟩)) ∧
    (intoIterSteps (RawList.into_iter s) ps.length).1 = chainElems s ps ∧
    (IntoIter.next (intoIterSteps (RawList.into_iter s) ps.length).2).1 = none ∧
    liveAddrs (intoIterSteps (RawList.into_iter s) ps.length).2.inner = [] := by
  obtain ⟨hdrain, hwf'⟩ := popDrain_wf h
  rcases wf_nil_empty hwf' with ⟨hh, _, hl⟩
  have heq := intoIterSteps_eq_popDrain s ps.length
  refine ⟨intoIterSteps_eq_popDrain s, ?_, ?_, ?_⟩
  · rw [heq]
    exact hdrain
  · rw [heq]
    show (IntoIter.next ⟨(popDrain s ps.length).2⟩).1 = none
    have : IntoIter.next (⟨(popDrain s ps.length).2⟩ : IntoIter α)
        = ((pop (popDrain s ps.length).2).1, ⟨(pop (popDrain s ps.length).2).2⟩) := rfl
    rw [this, pop_empty hh]
  · rw [heq]
    exact hl

/-- Witness for C7 on the queue `push(push(new, 1), 2)`. -/
theorem c7_into_iter_refines_pop_witness :
    WF (push (push (RawList.new Nat) 1) 2) [1, 2] ∧
    ((∀ fuel, intoIterSteps (RawList.into_iter (push (push (RawList.new Nat) 1) 2)) fuel
      = ((popDrain (push (push (RawList.new Nat) 1) 2) fuel).1,
         ⟨(popDrain (push (push (RawList.new Nat) 1) 2) fuel).2⟩)) ∧
    (intoIterSteps (RawList.into_iter (push (push (RawList.new Nat) 1) 2))
        ([1, 2] : List Nat).length).1
      = chainElems (push (push (RawList.new Nat) 1) 2) [1, 2] ∧
    (IntoIter.next (intoIterSteps (RawList.into_iter (push (push (RawList.new Nat) 1) 2))
        ([1, 2] : List Nat).length).2).1 = none ∧
    liveAddrs (intoIterSteps (RawList.into_iter (push (push (RawList.new Nat) 1) 2))
        ([1, 2] : List Nat).length).2.inner = []) :=
  ⟨by decide, c7_into_iter_refines_pop (push (push (RawList.new Nat) 1) 2) [1, 2] (by decide)⟩

/-- Claim C8: `iter` yields read-only borrows of each element in
head-to-tail order and then `None`, exhausting the iterator; the traversal
takes the queue state as an untouched parameter (it creates no new state),
and a subsequent `pop` on the still-unchanged queue yields the first
element. -/
theorem c8_iter_readonly {α : Type} (s : RawList α) (ps : List Nat) (h : WF s ps) :
    iterSteps s (RawList.iter s) ps.length = (chainElems s ps, ⟨none⟩) ∧
    Iter.next s (iterSteps s (RawList.iter s) ps.length).2 = (none, ⟨none⟩) ∧
    (pop s).1 = (chainElems s ps).head? := by
  obtain ⟨hch, htail, hlive⟩ := h
  have hwalk := iterSteps_chain hch
  have hiter : RawList.iter s = (⟨if s.head = 0 then none else some s.head⟩ : Iter α) := rfl
  rw [hiter]
  refine ⟨hwalk, by rw [hwalk]; rfl, ?_⟩
  cases ps with
  | nil =>
    have hh : s.head = 0 := chainB_nil_iff.1 hch
    rw [pop_empty hh]
    rfl
  | cons a as =>
    rcases pop_cons ⟨hch, htail, hlive⟩ with ⟨n, hread, _, hpop, _, _⟩
    rw [hpop, chainElems_cons_of_some hread]
    rfl

/-- Witness for C8 on the queue `push(push(push(new, 1), 2), 3)`. -/
theorem c8_iter_readonly_witness :
    WF (push (push (push (RawList.new Nat) 1) 2) 3) [1, 2, 3] ∧
    (iterSteps (push (push (push (RawList.new Nat) 1) 2) 3)
        (RawList.iter (push (push (push (RawList.new Nat) 1) 2) 3))
        ([1, 2, 3] : List Nat).length
      = (chainElems (push (push (push (RawList.new Nat) 1) 2) 3) [1, 2, 3], ⟨none⟩) ∧
    Iter.next (push (push (push (RawList.new Nat) 1) 2) 3)
        (iterSteps (push (push (push (RawList.new Nat) 1) 2) 3)
          (RawList.iter (push (push (push (RawList.new Nat) 1) 2) 3))
          ([1, 2, 3] : List Nat).length).2 = (none, ⟨none⟩) ∧
    (pop (push (push (push (RawList.new Nat) 1) 2) 3)).1
      = (chainElems (push (push (push (RawList.new Nat) 1) 2) 3) [1, 2, 3]).head?) ∧
    chainElems (push (push (push (RawList.new Nat) 1) 2) 3) [1, 2, 3] = [1, 2, 3] :=
  ⟨by decide,
    c8_iter_readonly (push (push (push (RawList.new Nat) 1) 2) 3) [1, 2, 3] (by decide),
    by decide⟩

/-- Claim C9: writing `f` through every borrow yielded by the mutable
traversal is observed by a later read-only traversal: `iter` over the
mutated queue yields exactly the old contents mapped by `f`, and the queue
stays well formed on the same chain. -/
theorem c9_iter_mut_observed {α : Type} (f : α → α) (s : RawList α) (ps : List Nat)
    (h : WF s ps) :
    iterSteps (iterMutRun f s (RawList.iter_mut s) ps.length)
        (RawList.iter (iterMutRun f s (RawList.iter_mut s) ps.length)) ps.length
      = ((chainElems s ps).map f, ⟨none⟩) ∧
    WF (iterMutRun f s (RawList.iter_mut s) ps.length) ps := by
  obtain ⟨hch, htail, hlive⟩ := h
  have hnd := chainB_nodup hch
  have hitm : RawList.iter_mut s
      = (⟨if s.head = 0 then none else some s.head⟩ : IterMut α) := rfl
  rw [hitm]
  obtain ⟨hh, ht, _, hout, hin⟩ := iterMutRun_chain f s hch hnd
  have hch' : chainB (iterMutRun f s ⟨if s.head = 0 then none else some s.head⟩
      ps.length) s.head ps = true := by
    rw [chainB_frame_mapElem f hin s.head]
    exact hch
  have helems' : chainElems (iterMutRun f s ⟨if s.head = 0 then none else some s.head⟩
      ps.length) ps = (chainElems s ps).map f :=
    chainElems_mapElem f hch hin
  constructor
  · have hiter : RawList.iter (iterMutRun f s ⟨if s.head = 0 then none else some s.head⟩
        ps.length) = (⟨if s.head = 0 then none else some s.head⟩ : Iter α) := by
      show (⟨if (iterMutRun f s ⟨if s.head = 0 then none else some s.head⟩
        ps.length).head = 0 then none
        else some (iterMutRun f s ⟨if s.head = 0 then none else some s.head⟩
          ps.length).head⟩ : Iter α) = _
      rw [hh]
    rw [hiter]
    have hwalk := iterSteps_chain hch'
    rw [hwalk, helems']
  · refine ⟨?_, ?_, ?_⟩
    · rw [hh]
      exact hch'
    · rw [ht, htail]
    · intro q hq
      have hsome := mem_liveAddrs_iff.1 hq
      by_cases hmem : q ∈ ps
      · exact hmem
      · rw [hout q hmem] at hsome
        exact hlive q (mem_liveAddrs_iff.2 hsome)

/-- Witness for C9: incrementing every element of the queue `[1, 2, 3]` and
then reading it back with `iter` yields `[2, 3, 4]`. -/
theorem c9_iter_mut_observed_witness :
    WF (push (push (push (RawList.new Nat) 1) 2) 3) [1, 2, 3] ∧
    (iterSteps (iterMutRun (· + 1) (push (push (push (RawList.new Nat) 1) 2) 3)
          (RawList.iter_mut (push (push (push (RawList.new Nat) 1) 2) 3))
          ([1, 2, 3] : List Nat).length)
        (RawList.iter (iterMutRun (· + 1) (push (push (push (RawList.new Nat) 1) 2) 3)
          (RawList.iter_mut (push (push (push (RawList.new Nat) 1) 2) 3))
          ([1, 2, 3] : List Nat).length)) ([1, 2, 3] : List Nat).length
      = ((chainElems (push (push (push (RawList.new Nat) 1) 2) 3) [1, 2, 3]).map (· + 1),
         ⟨none⟩) ∧
    WF (iterMutRun (· + 1) (push (push (push (RawList.new Nat) 1) 2) 3)
        (RawList.iter_mut (push (push (push (RawList.new Nat) 1) 2) 3))
        ([1, 2, 3] : List Nat).length) [1, 2, 3]) ∧
    (chainElems (push (push (push (RawList.new Nat) 1) 2) 3) [1, 2, 3]).map (· + 1)
      = [2, 3, 4] :=
  ⟨by decide,
    c9_iter_mut_observed (· + 1) (push (push (push (RawList.new Nat) 1) 2) 3) [1, 2, 3]
      (by decide),
    by decide⟩

/-- Claim C10: the three traversal views agree on content and order: the
elements yielded by `iter`, the values behind the borrows yielded by
`iter_mut` (before any mutation), and the values moved out by `into_iter`
are all exactly the abstract contents; on an empty queue each traversal
yields `None` immediately. -/
theorem c10_traversals_agree {α : Type} (s : RawList α) (ps : List Nat) (h : WF s ps) :
    (iterSteps s (RawList.iter s) ps.length).1 = chainElems s ps ∧
    ((iterMutSteps s (RawList.iter_mut s) ps.length).1).map Prod.snd = chainElems s ps ∧
    (intoIterSteps (RawList.into_iter s) ps.length).1 = chainElems s ps ∧
    (s.head = 0 →
      (Iter.next s (RawList.iter s)).1 = none ∧
      (IterMut.next s (RawList.iter_mut s)).1 = none ∧
      (IntoIter.next (RawList.into_iter s)).1 = none) := by
  obtain ⟨hch, htail, hlive⟩ := h
  have hiter : RawList.iter s = (⟨if s.head = 0 then none else some s.head⟩ : Iter α) := rfl
  have hitm : RawList.iter_mut s
      = (⟨if s.head = 0 then none else some s.head⟩ : IterMut α) := rfl
  refine ⟨?_, ?_, ?_, ?_⟩
  · rw [hiter, iterSteps_chain hch]
  · rw [hitm, iterMutSteps_chain hch]
    exact chainPairs_snd s ps
  · rw [intoIterSteps_eq_popDrain]
    exact (popDrain_wf ⟨hch, htail, hlive⟩).1
  · intro hh
    refine ⟨?_, ?_, ?_⟩
    · rw [hiter, if_pos hh]
      rfl
    · rw [hitm, if_pos hh]
      rfl
    · show (pop s).1 = none
      rw [pop_empty hh]

/-- Witness for C10 on the queue `[1, 2]` (non-empty branch) and the empty
queue (empty branch). -/
theorem c10_traversals_agree_witness :
    (WF (push (push (RawList.new Nat) 1) 2) [1, 2] ∧
    ((iterSteps (push (push (RawList.new Nat) 1) 2)
        (RawList.iter (push (push (RawList.new Nat) 1) 2))
        ([1, 2] : List Nat).length).1
      = chainElems (push (push (RawList.new Nat) 1) 2) [1, 2] ∧
    ((iterMutSteps (push (push (RawList.new Nat) 1) 2)
        (RawList.iter_mut (push (push (RawList.new Nat) 1) 2))
        ([1, 2] : List Nat).length).1).map Prod.snd
      = chainElems (push (push (RawList.new Nat) 1) 2) [1, 2] ∧
    (intoIterSteps (RawList.into_iter (push (push (RawList.new Nat) 1) 2))
        ([1, 2] : List Nat).length).1
      = chainElems (push (push (RawList.new Nat) 1) 2) [1, 2] ∧
    ((push (push (RawList.new Nat) 1) 2).head = 0 →
      (Iter.next (push (push (RawList.new Nat) 1) 2)
        (RawList.iter (push (push (RawList.new Nat) 1) 2))).1 = none ∧
      (IterMut.next (push (push (RawList.new Nat) 1) 2)
        (RawList.iter_mut (push (push (RawList.new Nat) 1) 2))).1 = none ∧
      (IntoIter.next (RawList.into_iter (push (push (RawList.new Nat) 1) 2))).1
        = none))) ∧
    (WF (RawList.new Nat) [] ∧
    ((iterSteps (RawList.new Nat) (RawList.iter (RawList.new Nat))
        ([] : List Nat).length).1 = chainElems (RawList.new Nat) [] ∧
    ((iterMutSteps (RawList.new Nat) (RawList.iter_mut (RawList.new Nat))
        ([] : List Nat).length).1).map Prod.snd = chainElems (RawList.new Nat) [] ∧
    (intoIterSteps (RawList.into_iter (RawList.new Nat))
        ([] : List Nat).length).1 = chainElems (RawList.new Nat) [] ∧
    ((RawList.new Nat).head = 0 →
      (Iter.next (RawList.new Nat) (RawList.iter (RawList.new Nat))).1 = none ∧
      (IterMut.next (RawList.new Nat) (RawList.iter_mut (RawList.new Nat))).1 = none ∧
      (IntoIter.next (RawList.into_iter (RawList.new Nat))).1 = none))) :=
  ⟨⟨by decide, c10_traversals_agree (push (push (RawList.new Nat) 1) 2) [1, 2] (by decide)⟩,
   ⟨by decide, c10_traversals_agree (RawList.new Nat) [] (by decide)⟩⟩

/-- Claim C3 (code bug demonstration): in the source `peek_mut` and
`iter_mut` are declared with a shared `&self` receiver yet hand out
mutable borrows.  At the value level: on the one-element queue, `peek_mut`
yields a mutable borrow of node address 1, a second `peek_mut` call on the
same (unconsumed, unfrozen) state yields a mutable borrow of the very same
address, and `peek` and `iter_mut` also target node 1 — so a mutable
borrow coexists with other borrows of the same node's element, violating
the claimed exclusivity. -/
theorem c3_peek_mut_not_exclusive :
    (peek_mut (push (RawList.new Nat) 1)).map Prod.fst = some 1 ∧
    (peek_mut (push (RawList.new Nat) 1)).map Prod.fst
      = (peek_mut (push (RawList.new Nat) 1)).map Prod.fst ∧
    peek (push (RawList.new Nat) 1) = some 1 ∧
    RawList.iter_mut (push (RawList.new Nat) 1) = ⟨some 1⟩ := by
  decide

end Fifth
